import Mathlib

/-!
Verification of the multi-key JSON sort engine of `json_sorter.py`
(HF-Xerox-Library).

The embedding models the engine over parsed JSON documents.  JSON numbers
are modelled as integers (every numeric value exercised by the spec and by
the sorter's sentinel logic is an integer; the floating-point infinity
sentinels of the source are modelled as the distinguished `SValue.ninf` /
`SValue.pinf` comparison values, so no floating-point arithmetic is
involved).  Python dicts are modelled as association lists with distinct
keys, in insertion order.  Errors raised by the Python code are modelled
with `Except`:

* `SortError.valueError`  — the `ValueError` raised when the length of the
  reverse list does not match the number of sort keys (the message in the
  source is "Length of reverse list must match number of sort keys");
* `SortError.keyError k`  — a `KeyError` naming the key `k` (raised by the
  `error` missing-key strategy, and by the bare `item[key]` access reached
  when the strategy string is not one of first/last/error);
* `SortError.typeError`   — a `TypeError` raised when Python compares two
  values of incomparable types.

The JSON-string input branch of `sort_json_data` (`json.loads` on a `str`
argument) is not modelled: inputs here are already-parsed documents, which
is the only form the specified Collection shapes take.
-/

/-- A parsed JSON value.  Numbers are modelled as integers (see file
comment); objects are association lists in insertion order with distinct
keys, matching Python dicts. -/
inductive JValue where
  | null
  | bool (b : Bool)
  | num (n : Int)
  | str (s : String)
  | arr (elems : List JValue)
  | obj (fields : List (String × JValue))

/-- First-match lookup in an association list, i.e. Python `d[k]` /
`k in d` on a dict. -/
def lookupField : List (String × JValue) → String → Option JValue
  | [], _ => none
  | (k, v) :: fields, key => if k = key then some v else lookupField fields key

theorem sizeOf_lookupField {fields : List (String × JValue)} {key : String}
    {v : JValue} (h : lookupField fields key = some v) : sizeOf v < sizeOf fields := by
  induction fields with
  | nil => simp [lookupField] at h
  | cons kv rest ih =>
    obtain ⟨k, w⟩ := kv
    by_cases hk : k = key
    · simp [lookupField, hk] at h
      subst h
      simp
      omega
    · simp [lookupField, hk] at h
      have := ih h
      simp
      omega

/-- Python `int(b)` for a bool (`False == 0`, `True == 1`); bools take part
in numeric comparison and equality in Python. -/
def bint (b : Bool) : Int := if b then 1 else 0

/-- Python string `<`: lexicographic comparison of code points; on equal
code points the comparison continues, and a strict prefix is smaller. -/
def strLtAux : List Char → List Char → Bool
  | [], [] => false
  | [], _ :: _ => true
  | _ :: _, [] => false
  | a :: as, b :: bs =>
    if a.toNat = b.toNat then strLtAux as bs else decide (a.toNat < b.toNat)

def strLt (s t : String) : Bool := strLtAux s.data t.data

mutual
/-- Python `==` on JSON values: numeric equality across int/bool, string
equality, elementwise list equality, and dict equality (equal size and
every key bound to an equal value; stated symmetrically, which coincides
with Python's definition on genuine dicts, whose keys are distinct).
Cross-type comparisons (other than int/bool) are unequal, never an error. -/
def jeq : JValue → JValue → Bool
  | .null, .null => true
  | .bool a, .bool b => a == b
  | .bool a, .num m => bint a == m
  | .num n, .bool b => n == bint b
  | .num n, .num m => n == m
  | .str a, .str b => a == b
  | .arr a, .arr b => jeqList a b
  | .obj a, .obj b => decide (a.length = b.length) && (jeqFields a b && jeqFields b a)
  | _, _ => false
termination_by v w => sizeOf v + sizeOf w
decreasing_by all_goals (simp_wf; omega)

def jeqList : List JValue → List JValue → Bool
  | [], [] => true
  | x :: xs, y :: ys => jeq x y && jeqList xs ys
  | _, _ => false
termination_by l1 l2 => sizeOf l1 + sizeOf l2
decreasing_by all_goals (simp_wf; omega)

def jeqFields : List (String × JValue) → List (String × JValue) → Bool
  | [], _ => true
  | (k, v) :: rest, other =>
    (match h : lookupField other k with
     | some w => jeq v w
     | none => false) && jeqFields rest other
termination_by l1 l2 => sizeOf l1 + sizeOf l2
decreasing_by
  all_goals simp_wf
  all_goals try omega
  all_goals (have hw := sizeOf_lookupField h; omega)
end

mutual
/-- Python `<` on JSON values: defined (`some`) for numeric pairs
(int/bool), string pairs and list pairs; `none` models the `TypeError`
Python raises on every other combination (including dict vs dict and
None vs anything). -/
def jlt : JValue → JValue → Option Bool
  | .num n, .num m => some (decide (n < m))
  | .num n, .bool b => some (decide (n < bint b))
  | .bool a, .num m => some (decide (bint a < m))
  | .bool a, .bool b => some (decide (bint a < bint b))
  | .str a, .str b => some (strLt a b)
  | .arr a, .arr b => jltList a b
  | _, _ => none

/-- Python list `<`: walk both lists; on each position first test `==`
(which never raises) and skip equal elements, otherwise the element `<`
decides (and may raise); if one list is exhausted the shorter is smaller. -/
def jltList : List JValue → List JValue → Option Bool
  | [], [] => some false
  | [], _ :: _ => some true
  | _ :: _, [] => some false
  | x :: xs, y :: ys => if jeq x y then jltList xs ys else jlt x y
end

/-- A per-key comparison value: either one of the floating-point infinity
sentinels substituted by `get_sort_value`, or an actual JSON value. -/
inductive SValue where
  | ninf
  | pinf
  | val (v : JValue)

/-- Values Python can order against a float infinity (ints and bools). -/
def isNumLike : JValue → Bool
  | .num _ => true
  | .bool _ => true
  | _ => false

/-- Python `==` on comparison values: the infinities equal themselves only
(they are not equal to any finite number or non-number). -/
def seq : SValue → SValue → Bool
  | .ninf, .ninf => true
  | .pinf, .pinf => true
  | .val v, .val w => jeq v w
  | _, _ => false

/-- Python `<` on comparison values: `-inf` is below every number and
`+inf` above, and comparing an infinity with a non-numeric value raises
`TypeError` (`none`). -/
def slt : SValue → SValue → Option Bool
  | .ninf, .ninf => some false
  | .ninf, .pinf => some true
  | .pinf, .ninf => some false
  | .pinf, .pinf => some false
  | .ninf, .val w => if isNumLike w then some true else none
  | .pinf, .val w => if isNumLike w then some false else none
  | .val v, .ninf => if isNumLike v then some false else none
  | .val v, .pinf => if isNumLike v then some true else none
  | .val v, .val w => jlt v w

/-- Python tuple `<` on the composite sort keys: positionwise `==`
(never raising) with the first unequal position decided by `<` (which may
raise); equal tuples are not less. -/
def tupLt : List SValue → List SValue → Option Bool
  | [], [] => some false
  | [], _ :: _ => some true
  | _ :: _, [] => some false
  | x :: xs, y :: ys => if seq x y then tupLt xs ys else slt x y

/-- Python tuple `==` on composite sort keys. -/
def seqT : List SValue → List SValue → Bool
  | [], [] => true
  | x :: xs, y :: ys => seq x y && seqT xs ys
  | _, _ => false

/-- The exceptions the sort engine can raise (see file comment). -/
inductive SortError where
  | valueError
  | keyError (key : String)
  | typeError
deriving Repr, DecidableEq

/-- The `reverse` argument of `sort_json_data`: a single bool applying to
all keys, or one bool per key. -/
inductive ReverseSpec where
  | single (b : Bool)
  | perKey (l : List Bool)
deriving Repr, DecidableEq

/-- Lines 52-58 of the source: a single bool is replicated over all sort
keys; a list must have exactly one entry per sort key, else `ValueError`. -/
def normalize_reverse (reverse : ReverseSpec) (n : Nat) : Except SortError (List Bool) :=
  match reverse with
  | .single b => .ok (List.replicate n b)
  | .perKey l => if l.length = n then .ok l else .error .valueError

/-- `get_sort_value` (lines 61-77): for a mapping item, a missing key is
routed through the missing-key strategy (`error` raises a `KeyError`
naming the key; `first`/`last` substitute a direction-dependent infinity;
any other strategy string falls through to the bare `item[key]` access,
which raises a `KeyError`).  A present value of `None` is substituted with
`-inf` when the key's reverse flag is false and `+inf` when it is true;
any other present value is used as-is.  A non-mapping item fails the
membership test with a `TypeError`. -/
def get_sort_value (missing_key_strategy : String) (item : JValue)
    (key : String) (is_reverse : Bool) : Except SortError SValue :=
  match item with
  | .obj fields =>
    match lookupField fields key with
    | none =>
      if missing_key_strategy = "error" then .error (.keyError key)
      else if missing_key_strategy = "first" then
        .ok (if is_reverse then .pinf else .ninf)
      else if missing_key_strategy = "last" then
        .ok (if is_reverse then .ninf else .pinf)
      else .error (.keyError key)
    | some .null => .ok (if is_reverse then .pinf else .ninf)
    | some v => .ok (.val v)
  | _ => .error .typeError

/-- Left-to-right effectful map over a list, mirroring both the order in
which Python's `sorted` computes the key of every element before any
comparison, and generator evaluation order inside `sort_key`. -/
def mapME (g : α → Except SortError β) : List α → Except SortError (List β)
  | [] => .ok []
  | x :: xs =>
    match g x with
    | .error e => .error e
    | .ok y =>
      match mapME g xs with
      | .error e => .error e
      | .ok ys => .ok (y :: ys)

/-- `sort_key` (lines 79-84): the tuple of per-key comparison values in
sort-key order, pairing each key with its reverse flag. -/
def sort_key_tuple (strat : String) (sort_keys : List String)
    (reverse_list : List Bool) (item : JValue) : Except SortError (List SValue) :=
  mapME (fun kr => get_sort_value strat item kr.1 kr.2) (sort_keys.zip reverse_list)

/-- Decoration step of `sorted(data, key=sort_key)`: compute every
element's comparison tuple (left to right) before sorting. -/
def decorate (strat : String) (sort_keys : List String) (reverse_list : List Bool)
    (xs : List JValue) : Except SortError (List (List SValue × JValue)) :=
  mapME (fun item =>
    match sort_key_tuple strat sort_keys reverse_list item with
    | .error e => .error e
    | .ok t => .ok (t, item)) xs

/-- Insert a decorated record into an already sorted decorated list:
it goes in front of the first entry that is not strictly below it, which
keeps the sort stable (the inserted record is the original-earlier one).
A failing comparison aborts with `none` (`TypeError`). -/
def insertD (p : List SValue × JValue) :
    List (List SValue × JValue) → Option (List (List SValue × JValue))
  | [] => some [p]
  | q :: rest =>
    match tupLt q.1 p.1 with
    | none => none
    | some true =>
      match insertD p rest with
      | none => none
      | some out => some (q :: out)
    | some false => some (p :: q :: rest)

/-- The stable sort over decorated records.  The source relies on Python's
stable `sorted`; the spec explicitly allows any stable sorting strategy,
and insertion sort is used here.  On inputs whose comparison tuples are
totally preordered it computes the unique stable result; a failing
comparison yields `none` (`TypeError`). -/
def isortD : List (List SValue × JValue) → Option (List (List SValue × JValue))
  | [] => some []
  | p :: rest =>
    match isortD rest with
    | none => none
    | some srt => insertD p srt

/-- The list branch of `sort_json_data` (lines 52-89): normalize the
reverse specification, compute every record's comparison tuple, stably
sort, and return the records. -/
def sort_list (xs : List JValue) (sort_keys : List String)
    (reverse : ReverseSpec) (strat : String) : Except SortError (List JValue) :=
  match normalize_reverse reverse sort_keys.length with
  | .error e => .error e
  | .ok reverse_list =>
    match decorate strat sort_keys reverse_list xs with
    | .error e => .error e
    | .ok dec =>
      match isortD dec with
      | none => .error .typeError
      | some sortedDec => .ok (sortedDec.map (fun p => p.2))

/-- `sort_json_data` (lines 31-89) on a parsed document: a mapping with a
single entry whose value is a list has that list sorted and is rewrapped
under the same key (the recursive call of the source on the contained list
lands in the list branch, inlined here as `sort_list`); any other mapping
is wrapped into a one-element list and sorted (the result stays a list —
unwrapping back to a bare mapping happens only in `main`); a list is
sorted directly; every other value is returned unchanged, before any
validation. -/
def sort_json_data (data : JValue) (sort_keys : List String)
    (reverse : ReverseSpec) (strat : String) : Except SortError JValue :=
  match data with
  | .obj [(k, .arr xs)] =>
    match sort_list xs sort_keys reverse strat with
    | .error e => .error e
    | .ok ys => .ok (.obj [(k, .arr ys)])
  | .obj fields =>
    match sort_list [.obj fields] sort_keys reverse strat with
    | .error e => .error e
    | .ok ys => .ok (.arr ys)
  | .arr xs =>
    match sort_list xs sort_keys reverse strat with
    | .error e => .error e
    | .ok ys => .ok (.arr ys)
  | v => .ok v

/-- The Collection shapes of the spec's data model: a sequence of records,
a single record, or a single-key mapping of a sequence (all mappings and
sequences are covered by these two constructors). -/
def isCollection : JValue → Bool
  | .arr _ => true
  | .obj _ => true
  | _ => false

/-- `get_nested_value` (lines 157-166): walk the dot-separated path by
successive mapping lookups; if at any step the current value is not a
mapping or lacks the next field name, a `KeyError` naming that field is
raised. -/
def get_nested_value_aux : List String → JValue → Except SortError JValue
  | [], v => .ok v
  | k :: ks, v =>
    match v with
    | .obj fields =>
      match lookupField fields k with
      | some w => get_nested_value_aux ks w
      | none => .error (.keyError k)
    | _ => .error (.keyError k)

/-- Python `key_path.split('.')`: split on every dot, keeping empty
pieces (operates on the character list of the string). -/
def splitDotAux : List Char → List Char → List String
  | [], acc => [String.mk acc.reverse]
  | c :: cs, acc =>
    if c = '.' then String.mk acc.reverse :: splitDotAux cs []
    else splitDotAux cs (c :: acc)

def splitDot (s : String) : List String := splitDotAux s.data []

def get_nested_value (item : JValue) (key_path : String) : Except SortError JValue :=
  get_nested_value_aux (splitDot key_path) item

/-- Python `'.' in key_path`. -/
def hasDot (key_path : String) : Bool := key_path.data.contains '.'

/-- Python dict assignment `d[k] = v` on an insertion-ordered dict:
an existing key keeps its position and gets the new value; a new key is
appended at the end. -/
def setField (fields : List (String × JValue)) (k : String) (v : JValue) :
    List (String × JValue) :=
  if (lookupField fields k).isSome then
    fields.map (fun kv => (kv.1, if kv.1 = k then v else kv.2))
  else fields ++ [(k, v)]

/-- The body of the inner loop of `prepare_data_with_nested_keys` for one
sort key: keys containing a dot are resolved against the original record
`fields` and the result (or `None` on a `KeyError`) is stored in the
accumulated flat record under the full path string; other keys do
nothing. -/
def prepare_step (fields : List (String × JValue))
    (acc : List (String × JValue)) (key_path : String) : List (String × JValue) :=
  if hasDot key_path then
    match get_nested_value (.obj fields) key_path with
    | .ok v => setField acc key_path v
    | .error _ => setField acc key_path .null
  else acc

/-- One record of `prepare_data_with_nested_keys` (lines 168-184): start
from a shallow copy of the record; for every sort key containing a dot,
resolve it against the original record and store the result under the
full path string, storing `None` when resolution raises `KeyError`. -/
def prepare_item (sort_keys : List String) (item : JValue) : JValue :=
  match item with
  | .obj fields => .obj (sort_keys.foldl (prepare_step fields) fields)
  | v => v

def prepare_data_with_nested_keys (data : List JValue) (sort_keys : List String) :
    List JValue :=
  data.map (prepare_item sort_keys)

/-- The restore step of `main` (lines 246-252): drop every field whose
name is one of the sort keys and contains a dot (the synthetic flattened
fields). -/
def strip_item (sort_keys : List String) (item : JValue) : JValue :=
  match item with
  | .obj fields =>
    .obj (fields.filter (fun kv => !(sort_keys.contains kv.1) || !(hasDot kv.1)))
  | v => v

/-- The pipeline `main` runs for a list document (lines 205-252): flatten
dot-path keys into synthetic fields when any sort key contains a dot, sort
with `sort_json_data` (which for a list argument is `sort_list`), then
strip the synthetic fields from the result. -/
def sort_with_nested_keys (data : List JValue) (sort_keys : List String)
    (reverse : ReverseSpec) (strat : String) : Except SortError (List JValue) :=
  let hasNested := sort_keys.any hasDot
  let toSort := if hasNested then prepare_data_with_nested_keys data sort_keys else data
  match sort_list toSort sort_keys reverse strat with
  | .error e => .error e
  | .ok sortedData =>
    .ok (if hasNested then sortedData.map (strip_item sort_keys) else sortedData)

/-- Adjacent order produced by the stable sort: `below u v` holds when the
comparison declared `v` not strictly smaller than `u` (so `u` may stay
before `v`). -/
def below (u v : List SValue × JValue) : Prop := tupLt v.1 u.1 = some false

/-! ### Basic properties of the value comparison semantics -/

theorem beqComm {α : Type _} [BEq α] [LawfulBEq α] [DecidableEq α] (a b : α) :
    (a == b) = (b == a) := by
  by_cases h : a = b
  · subst h; rfl
  · simp [beq_eq_false_iff_ne, h, Ne.symm h]

theorem strLtAux_asymm {l1 l2 : List Char} (h : strLtAux l1 l2 = true) :
    strLtAux l2 l1 = false := by
  induction l1 generalizing l2 with
  | nil =>
    cases l2 with
    | nil => simp [strLtAux] at h
    | cons b bs => simp [strLtAux]
  | cons a as ih =>
    cases l2 with
    | nil => simp [strLtAux] at h
    | cons b bs =>
      by_cases hab : a.toNat = b.toNat
      · simp [strLtAux, hab] at h ⊢
        exact ih h
      · simp [strLtAux, hab] at h
        simp [strLtAux, Ne.symm hab]
        omega

theorem strLt_asymm {s t : String} (h : strLt s t = true) : strLt t s = false :=
  strLtAux_asymm h

mutual
theorem jeq_symm (v w : JValue) : jeq v w = jeq w v := by
  cases v with
  | null => cases w <;> simp [jeq]
  | bool a =>
    cases w <;> simp only [jeq]
    · exact beqComm ..
    · exact beqComm ..
  | num n =>
    cases w <;> simp only [jeq]
    · exact beqComm ..
    · exact beqComm ..
  | str s =>
    cases w <;> simp only [jeq]
    exact beqComm ..
  | arr a =>
    cases w <;> simp only [jeq]
    exact jeqList_symm ..
  | obj a =>
    cases w <;> simp only [jeq]
    rename_i b
    have hl : (decide (a.length = b.length)) = (decide (b.length = a.length)) := by
      simp [eq_comm]
    rw [hl, Bool.and_comm (jeqFields a b) (jeqFields b a)]
termination_by sizeOf v + sizeOf w
decreasing_by all_goals (simp_wf; omega)

theorem jeqList_symm (l1 l2 : List JValue) : jeqList l1 l2 = jeqList l2 l1 := by
  cases l1 with
  | nil => cases l2 <;> simp [jeqList]
  | cons x xs =>
    cases l2 with
    | nil => simp [jeqList]
    | cons y ys =>
      simp only [jeqList]
      rw [jeq_symm x y, jeqList_symm xs ys]
termination_by sizeOf l1 + sizeOf l2
decreasing_by all_goals (simp_wf; omega)
end

theorem jlt_asymm_aux :
    ∀ n : Nat,
      (∀ v w : JValue, sizeOf v + sizeOf w ≤ n →
        jlt v w = some true → jlt w v = some false) ∧
      (∀ l1 l2 : List JValue, sizeOf l1 + sizeOf l2 ≤ n →
        jltList l1 l2 = some true → jltList l2 l1 = some false) := by
  intro n
  induction n using Nat.strong_induction_on with
  | _ n ih =>
    constructor
    · intro v w hn h
      cases v with
      | null => simp [jlt] at h
      | bool a =>
        cases w with
        | bool b => cases a <;> cases b <;> simp [jlt, bint] at h ⊢
        | num m => cases a <;> simp [jlt, bint] at h ⊢ <;> omega
        | null => simp [jlt] at h
        | str t => simp [jlt] at h
        | arr b => simp [jlt] at h
        | obj b => simp [jlt] at h
      | num a =>
        cases w with
        | bool b => cases b <;> simp [jlt, bint] at h ⊢ <;> omega
        | num m => simp [jlt] at h ⊢; omega
        | null => simp [jlt] at h
        | str t => simp [jlt] at h
        | arr b => simp [jlt] at h
        | obj b => simp [jlt] at h
      | str s =>
        cases w with
        | str t =>
          simp only [jlt, Option.some.injEq] at h ⊢
          exact strLt_asymm h
        | bool b => simp [jlt] at h
        | num m => simp [jlt] at h
        | null => simp [jlt] at h
        | arr b => simp [jlt] at h
        | obj b => simp [jlt] at h
      | arr a =>
        cases w with
        | arr b =>
          simp only [jlt] at h ⊢
          simp at hn
          exact (ih (sizeOf a + sizeOf b) (by omega)).2 a b le_rfl h
        | bool b => simp [jlt] at h
        | num m => simp [jlt] at h
        | null => simp [jlt] at h
        | str t => simp [jlt] at h
        | obj b => simp [jlt] at h
      | obj a => simp [jlt] at h
    · intro l1 l2 hn h
      cases l1 with
      | nil =>
        cases l2 with
        | nil => simp [jltList] at h
        | cons b bs => simp [jltList]
      | cons x xs =>
        cases l2 with
        | nil => simp [jltList] at h
        | cons y ys =>
          simp at hn
          by_cases hxy : jeq x y = true
          · have hyx : jeq y x = true := by rw [jeq_symm]; exact hxy
            simp only [jltList, hxy, hyx, if_true] at h ⊢
            exact (ih (sizeOf xs + sizeOf ys) (by omega)).2 xs ys le_rfl h
          · have hyx : jeq y x = false := by
              rw [jeq_symm]; simpa using hxy
            simp only [jltList, hxy, hyx, if_false, Bool.false_eq_true] at h ⊢
            exact (ih (sizeOf x + sizeOf y) (by omega)).1 x y le_rfl h

theorem jlt_asymm {v w : JValue} (h : jlt v w = some true) : jlt w v = some false :=
  (jlt_asymm_aux (sizeOf v + sizeOf w)).1 v w le_rfl h

theorem jltList_asymm {l1 l2 : List JValue} (h : jltList l1 l2 = some true) :
    jltList l2 l1 = some false :=
  (jlt_asymm_aux (sizeOf l1 + sizeOf l2)).2 l1 l2 le_rfl h


theorem seq_symm (x y : SValue) : seq x y = seq y x := by
  cases x <;> cases y <;> simp only [seq]
  exact jeq_symm ..

theorem slt_asymm {x y : SValue} (h : slt x y = some true) : slt y x = some false := by
  cases x with
  | ninf =>
    cases y with
    | ninf => simp [slt] at h
    | pinf => simp [slt]
    | val w =>
      by_cases hw : isNumLike w = true
      · simp [slt, hw]
      · simp [slt, hw] at h
  | pinf =>
    cases y with
    | ninf => simp [slt] at h
    | pinf => simp [slt] at h
    | val w =>
      by_cases hw : isNumLike w = true
      · simp [slt, hw] at h
      · simp [slt, hw] at h
  | val v =>
    cases y with
    | ninf =>
      by_cases hv : isNumLike v = true
      · simp [slt, hv] at h
      · simp [slt, hv] at h
    | pinf =>
      by_cases hv : isNumLike v = true
      · simp [slt, hv]
      · simp [slt, hv] at h
    | val w =>
      simp only [slt] at h ⊢
      exact jlt_asymm h

theorem tupLt_asymm {l1 l2 : List SValue} (h : tupLt l1 l2 = some true) :
    tupLt l2 l1 = some false := by
  induction l1 generalizing l2 with
  | nil =>
    cases l2 with
    | nil => simp [tupLt] at h
    | cons y ys => simp [tupLt]
  | cons x xs ih =>
    cases l2 with
    | nil => simp [tupLt] at h
    | cons y ys =>
      by_cases hxy : seq x y = true
      · have hyx : seq y x = true := by rw [seq_symm]; exact hxy
        simp only [tupLt, hxy, hyx, if_true] at h ⊢
        exact ih h
      · have hyx : seq y x = false := by rw [seq_symm]; simpa using hxy
        simp only [tupLt, hxy, hyx, if_false, Bool.false_eq_true] at h ⊢
        exact slt_asymm h

theorem seqT_symm (l1 l2 : List SValue) : seqT l1 l2 = seqT l2 l1 := by
  induction l1 generalizing l2 with
  | nil => cases l2 <;> simp [seqT]
  | cons x xs ih =>
    cases l2 with
    | nil => simp [seqT]
    | cons y ys => simp only [seqT]; rw [seq_symm, ih]

theorem tupLt_of_seqT {l1 l2 : List SValue} (h : seqT l1 l2 = true) :
    tupLt l1 l2 = some false := by
  induction l1 generalizing l2 with
  | nil =>
    cases l2 with
    | nil => simp [tupLt]
    | cons y ys => simp [seqT] at h
  | cons x xs ih =>
    cases l2 with
    | nil => simp [seqT] at h
    | cons y ys =>
      simp only [seqT, Bool.and_eq_true] at h
      simp only [tupLt, h.1, if_true]
      exact ih h.2

/-! ### The stable insertion sort: permutation, ordering, stability -/

theorem insertD_decomp {p : List SValue × JValue} {l out : List (List SValue × JValue)}
    (h : insertD p l = some out) :
    ∃ l1 l2, l = l1 ++ l2 ∧ out = l1 ++ p :: l2 ∧
      ∀ q ∈ l1, tupLt q.1 p.1 = some true := by
  induction l generalizing out with
  | nil =>
    simp [insertD] at h
    exact ⟨[], [], rfl, by simp [h.symm], by simp⟩
  | cons q rest ih =>
    cases htq : tupLt q.1 p.1 with
    | none => simp [insertD, htq] at h
    | some b =>
      cases b with
      | true =>
        cases hrec : insertD p rest with
        | none => simp [insertD, htq, hrec] at h
        | some out2 =>
          simp [insertD, htq, hrec] at h
          obtain ⟨l1, l2, hl, hout, hall⟩ := ih hrec
          refine ⟨q :: l1, l2, by simp [hl], by simp [hout, h.symm], ?_⟩
          intro r hr
          rcases List.mem_cons.mp hr with h1 | h1
          · subst h1; exact htq
          · exact hall r h1
      | false =>
        simp [insertD, htq] at h
        exact ⟨[], q :: rest, rfl, by simp [h.symm], by simp⟩

theorem insertD_perm {p : List SValue × JValue} {l out : List (List SValue × JValue)}
    (h : insertD p l = some out) : List.Perm out (p :: l) := by
  obtain ⟨l1, l2, hl, hout, _⟩ := insertD_decomp h
  subst hl; subst hout
  exact List.perm_middle

theorem isortD_perm {l out : List (List SValue × JValue)}
    (h : isortD l = some out) : List.Perm out l := by
  induction l generalizing out with
  | nil => simp [isortD] at h; simp [h.symm]
  | cons p rest ih =>
    cases hrec : isortD rest with
    | none => simp [isortD, hrec] at h
    | some srt =>
      simp [isortD, hrec] at h
      exact (insertD_perm h).trans ((ih hrec).cons p)

theorem insertD_chain {p : List SValue × JValue} {l out : List (List SValue × JValue)}
    (hc : List.Chain' below l) (h : insertD p l = some out) :
    List.Chain' below out := by
  induction l generalizing out with
  | nil =>
    simp [insertD] at h
    simp [h.symm]
  | cons q rest ih =>
    cases htq : tupLt q.1 p.1 with
    | none => simp [insertD, htq] at h
    | some b =>
      cases b with
      | false =>
        simp [insertD, htq] at h
        subst h
        exact List.chain'_cons.mpr ⟨htq, hc⟩
      | true =>
        cases hrec : insertD p rest with
        | none => simp [insertD, htq, hrec] at h
        | some out2 =>
          simp [insertD, htq, hrec] at h
          subst h
          have htail : List.Chain' below out2 := ih hc.tail hrec
          refine List.chain'_cons'.mpr ⟨?_, htail⟩
          intro y hy
          obtain ⟨l1, l2, hl, hout, _⟩ := insertD_decomp hrec
          cases l1 with
          | nil =>
            simp at hl
            subst hl
            simp [hout] at hy
            subst hy
            exact tupLt_asymm htq
          | cons x l1' =>
            have hx : rest = x :: (l1' ++ l2) := by simp [hl]
            have hy2 : y = x := by
              rw [hout] at hy
              simp at hy
              exact hy.symm
            subst hy2
            rw [hx] at hc
            exact (List.chain'_cons.mp hc).1

theorem isortD_chain {l out : List (List SValue × JValue)}
    (h : isortD l = some out) : List.Chain' below out := by
  induction l generalizing out with
  | nil =>
    simp [isortD] at h
    subst h
    simp
  | cons p rest ih =>
    cases hrec : isortD rest with
    | none => simp [isortD, hrec] at h
    | some srt =>
      simp [isortD, hrec] at h
      exact insertD_chain (ih hrec) h

theorem isortD_of_chain {l : List (List SValue × JValue)}
    (hc : List.Chain' below l) : isortD l = some l := by
  induction l with
  | nil => simp [isortD]
  | cons p rest ih =>
    have hrec := ih hc.tail
    cases rest with
    | nil => simp [isortD, insertD]
    | cons q t =>
      have hpq : tupLt q.1 p.1 = some false := (List.chain'_cons.mp hc).1
      have hins : insertD p (q :: t) = some (p :: q :: t) := by
        simp [insertD, hpq]
      rw [show isortD (p :: q :: t) =
            (match isortD (q :: t) with
             | none => none
             | some srt => insertD p srt) from rfl, hrec]
      exact hins

theorem isortD_stable {l out : List (List SValue × JValue)}
    {a b : List SValue × JValue}
    (h : isortD l = some out) (hsub : List.Sublist [a, b] l)
    (heq : seqT a.1 b.1 = true) : List.Sublist [a, b] out := by
  induction l generalizing out with
  | nil => simp at hsub
  | cons x rest ih =>
    cases hrec : isortD rest with
    | none => simp [isortD, hrec] at h
    | some srt =>
      simp [isortD, hrec] at h
      obtain ⟨l1, l2, hl, hout, hall⟩ := insertD_decomp h
      cases hsub with
      | cons xx htail =>
        have hsrt : List.Sublist [a, b] srt := ih hrec htail
        rw [hl] at hsrt
        rw [hout]
        exact hsrt.trans ((List.sublist_cons_self x l2).append_left l1)
      | cons₂ xx htail =>
        -- here the head x is the record a itself
        have hb : b ∈ rest := List.singleton_sublist.mp htail
        have hbs : b ∈ srt := (isortD_perm hrec).mem_iff.mpr hb
        rw [hl] at hbs
        rcases List.mem_append.mp hbs with hb1 | hb2
        · exfalso
          have hfalse : tupLt b.1 a.1 = some false := by
            apply tupLt_of_seqT
            rw [seqT_symm]
            exact heq
          have htrue := hall b hb1
          rw [htrue] at hfalse
          simp at hfalse
        · rw [hout]
          have h1 : List.Sublist [a, b] (a :: l2) :=
            List.Sublist.cons₂ a (List.singleton_sublist.mpr hb2)
          exact h1.trans (List.sublist_append_right l1 (a :: l2))

/-! ### Decoration and the list-level sort -/

theorem mapME_forall2 {α β : Type _} {g : α → Except SortError β} {xs : List α}
    {ys : List β} (h : mapME g xs = .ok ys) :
    List.Forall₂ (fun x y => g x = .ok y) xs ys := by
  induction xs generalizing ys with
  | nil =>
    simp [mapME] at h
    subst h
    exact List.Forall₂.nil
  | cons x rest ih =>
    cases hg : g x with
    | error e => simp [mapME, hg] at h
    | ok y =>
      cases hrest : mapME g rest with
      | error e => simp [mapME, hg, hrest] at h
      | ok ys2 =>
        simp [mapME, hg, hrest] at h
        subst h
        exact List.Forall₂.cons hg (ih hrest)

theorem mapME_error {α β : Type _} {g : α → Except SortError β} {xs : List α}
    {e : SortError} (h : mapME g xs = .error e) : ∃ x ∈ xs, g x = .error e := by
  induction xs with
  | nil => simp [mapME] at h
  | cons x rest ih =>
    cases hg : g x with
    | error e2 =>
      simp [mapME, hg] at h
      exact ⟨x, by simp, by rw [hg, h]⟩
    | ok y =>
      cases hrest : mapME g rest with
      | error e2 =>
        simp [mapME, hg, hrest] at h
        obtain ⟨z, hz, hgz⟩ := ih (by rw [hrest, h])
        exact ⟨z, by simp [hz], hgz⟩
      | ok ys => simp [mapME, hg, hrest] at h

theorem forall2_mem_right {α β : Type _} {R : α → β → Prop} {l : List α}
    {l2 : List β} (h : List.Forall₂ R l l2) {p : β} (hp : p ∈ l2) :
    ∃ x ∈ l, R x p := by
  induction h with
  | nil => simp at hp
  | cons hR hF ih =>
    rcases List.mem_cons.mp hp with h1 | h1
    · subst h1
      exact ⟨_, by simp, hR⟩
    · obtain ⟨x, hx, hxp⟩ := ih h1
      exact ⟨x, by simp [hx], hxp⟩

theorem forall2_sublist {α β : Type _} {R : α → β → Prop} {l : List α}
    {l2 : List β} (h : List.Forall₂ R l l2) :
    ∀ {s : List α}, List.Sublist s l →
      ∃ s2, List.Forall₂ R s s2 ∧ List.Sublist s2 l2 := by
  induction h with
  | nil =>
    intro s hs
    rw [List.sublist_nil.mp hs]
    exact ⟨[], List.Forall₂.nil, List.nil_sublist []⟩
  | @cons x y xs ys hR hF ih =>
    intro s hs
    cases hs with
    | cons _ htail =>
      obtain ⟨s2, hs2, hsub2⟩ := ih htail
      exact ⟨s2, hs2, hsub2.cons y⟩
    | cons₂ _ htail =>
      obtain ⟨s2, hs2, hsub2⟩ := ih htail
      exact ⟨y :: s2, List.Forall₂.cons hR hs2, hsub2.cons₂ y⟩

theorem decorate_mem {strat : String} {ks : List String} {rl : List Bool}
    {xs : List JValue} {dec : List (List SValue × JValue)}
    (h : decorate strat ks rl xs = .ok dec) :
    ∀ p ∈ dec, sort_key_tuple strat ks rl p.2 = .ok p.1 := by
  intro p hp
  obtain ⟨x, _, hxp⟩ := forall2_mem_right (mapME_forall2 h) hp
  cases ht : sort_key_tuple strat ks rl x with
  | error e => rw [ht] at hxp; simp at hxp
  | ok t =>
    rw [ht] at hxp
    simp at hxp
    rw [← hxp]
    exact ht

theorem decorate_map_self {strat : String} {ks : List String} {rl : List Bool}
    {out : List (List SValue × JValue)}
    (h : ∀ p ∈ out, sort_key_tuple strat ks rl p.2 = .ok p.1) :
    decorate strat ks rl (out.map (fun p => p.2)) = .ok out := by
  induction out with
  | nil => simp [decorate, mapME]
  | cons p rest ih =>
    have hp := h p (by simp)
    have hrest : decorate strat ks rl (rest.map (fun p => p.2)) = .ok rest :=
      ih (fun q hq => h q (by simp [hq]))
    simp only [List.map_cons, decorate, mapME, hp]
    simp only [decorate] at hrest
    rw [hrest]

theorem sort_list_ok_elim {xs ys : List JValue} {ks : List String}
    {rev : ReverseSpec} {strat : String}
    (h : sort_list xs ks rev strat = .ok ys) :
    ∃ rl dec out, normalize_reverse rev ks.length = .ok rl ∧
      decorate strat ks rl xs = .ok dec ∧ isortD dec = some out ∧
      ys = out.map (fun p => p.2) := by
  cases hn : normalize_reverse rev ks.length with
  | error e => simp [sort_list, hn] at h
  | ok rl =>
    cases hdec : decorate strat ks rl xs with
    | error e => simp [sort_list, hn, hdec] at h
    | ok dec =>
      cases hisort : isortD dec with
      | none => simp [sort_list, hn, hdec, hisort] at h
      | some out =>
        simp [sort_list, hn, hdec, hisort] at h
        exact ⟨rl, dec, out, rfl, hdec, hisort, h.symm⟩

theorem sort_list_idem {xs ys : List JValue} {ks : List String}
    {rev : ReverseSpec} {strat : String}
    (h : sort_list xs ks rev strat = .ok ys) :
    sort_list ys ks rev strat = .ok ys := by
  obtain ⟨rl, dec, out, hn, hdec, hisort, hys⟩ := sort_list_ok_elim h
  have hmem : ∀ p ∈ out, sort_key_tuple strat ks rl p.2 = .ok p.1 := by
    intro p hp
    exact decorate_mem hdec p ((isortD_perm hisort).mem_iff.mp hp)
  have hdec3 : decorate strat ks rl (out.map (fun p => p.2)) = .ok out :=
    decorate_map_self hmem
  have hisort2 : isortD out = some out :=
    isortD_of_chain (isortD_chain hisort)
  rw [hys]
  simp [sort_list, hn, hdec3, hisort2]

/-- Unfolding equation for the list branch of `sort_json_data`. -/
theorem sort_json_data_arr (xs : List JValue) (ks : List String)
    (rev : ReverseSpec) (strat : String) :
    sort_json_data (.arr xs) ks rev strat =
      (match sort_list xs ks rev strat with
       | .error e => .error e
       | .ok ys => .ok (.arr ys)) := rfl

/-- Unfolding equation for the single-key-mapping-of-list branch. -/
theorem sort_json_data_wrapped (k : String) (xs : List JValue) (ks : List String)
    (rev : ReverseSpec) (strat : String) :
    sort_json_data (.obj [(k, .arr xs)]) ks rev strat =
      (match sort_list xs ks rev strat with
       | .error e => .error e
       | .ok ys => .ok (.obj [(k, .arr ys)])) := rfl

/-! ### Classification of engine failures -/

/-- Recognizer for the configuration failure (the `ValueError` of the
direction-count check). -/
def isConfigFailure : Except SortError JValue → Bool
  | .error .valueError => true
  | _ => false

theorem forall2_mem_left {α β : Type _} {R : α → β → Prop} {l : List α}
    {l2 : List β} (h : List.Forall₂ R l l2) {x : α} (hx : x ∈ l) :
    ∃ p ∈ l2, R x p := by
  induction h with
  | nil => simp at hx
  | cons hR hF ih =>
    rcases List.mem_cons.mp hx with h1 | h1
    · subst h1
      exact ⟨_, by simp, hR⟩
    · obtain ⟨p, hp, hxp⟩ := ih h1
      exact ⟨p, by simp [hp], hxp⟩

theorem gsv_no_valueError (strat : String) (item : JValue) (key : String)
    (b : Bool) : get_sort_value strat item key b ≠ .error .valueError := by
  cases item with
  | obj fields =>
    cases hl : lookupField fields key with
    | none =>
      simp only [get_sort_value, hl]
      by_cases h1 : strat = "error" <;> by_cases h2 : strat = "first" <;>
        by_cases h3 : strat = "last" <;> simp [h1, h2, h3]
    | some v => cases v <;> simp [get_sort_value, hl]
  | null => simp [get_sort_value]
  | bool c => simp [get_sort_value]
  | num n => simp [get_sort_value]
  | str s => simp [get_sort_value]
  | arr a => simp [get_sort_value]

theorem sort_key_tuple_error {strat : String} {ks : List String} {rl : List Bool}
    {item : JValue} {e : SortError}
    (h : sort_key_tuple strat ks rl item = .error e) :
    ∃ kb ∈ ks.zip rl, get_sort_value strat item kb.1 kb.2 = .error e := by
  exact mapME_error h

theorem decorate_error {strat : String} {ks : List String} {rl : List Bool}
    {xs : List JValue} {e : SortError}
    (h : decorate strat ks rl xs = .error e) :
    ∃ item ∈ xs, ∃ kb ∈ ks.zip rl, get_sort_value strat item kb.1 kb.2 = .error e := by
  obtain ⟨item, hitem, hmatch⟩ := mapME_error h
  cases ht : sort_key_tuple strat ks rl item with
  | error e2 =>
    rw [ht] at hmatch
    simp at hmatch
    subst hmatch
    exact ⟨item, hitem, sort_key_tuple_error ht⟩
  | ok t =>
    rw [ht] at hmatch
    simp at hmatch

theorem sort_list_no_valueError {xs : List JValue} {ks : List String}
    {rev : ReverseSpec} {strat : String} {rl : List Bool}
    (hn : normalize_reverse rev ks.length = .ok rl) :
    sort_list xs ks rev strat ≠ .error .valueError := by
  intro h
  simp only [sort_list, hn] at h
  cases hdec : decorate strat ks rl xs with
  | error e =>
    simp only [hdec] at h
    simp at h
    obtain ⟨item, _, kb, _, hgsv⟩ := decorate_error hdec
    rw [h] at hgsv
    exact gsv_no_valueError strat item kb.1 kb.2 hgsv
  | ok dec =>
    simp only [hdec] at h
    cases hisort : isortD dec with
    | none => simp only [hisort] at h; simp at h
    | some out => simp only [hisort] at h; simp at h

/-! ### Type classes of comparison values (for the incomparability argument) -/

/-- The comparability class of a JSON value under Python ordering:
ints and bools are mutually orderable (class 0), strings only with strings
(1), lists only with lists (2); dicts (3) and null (4) are orderable with
nothing (only equality tests succeed on them). -/
def jClass : JValue → Nat
  | .null => 4
  | .bool _ => 0
  | .num _ => 0
  | .str _ => 1
  | .arr _ => 2
  | .obj _ => 3

/-- The class of a comparison value; the infinity sentinels are numeric. -/
def svClass : SValue → Nat
  | .ninf => 0
  | .pinf => 0
  | .val v => jClass v

/-- The class of a singleton comparison tuple. -/
def tupClass : List SValue → Nat
  | [v] => svClass v
  | _ => 0

theorem isNumLike_class {w : JValue} (h : isNumLike w = true) : jClass w = 0 := by
  cases w <;> simp_all [isNumLike, jClass]

theorem jeq_class {v w : JValue} (h : jeq v w = true) : jClass v = jClass w := by
  cases v <;> cases w <;> simp_all [jeq, jClass]

theorem jlt_class {v w : JValue} {c : Bool} (h : jlt v w = some c) :
    jClass v = jClass w := by
  cases v <;> cases w <;> simp_all [jlt, jClass]

theorem seq_class {x y : SValue} (h : seq x y = true) : svClass x = svClass y := by
  cases x <;> cases y <;> simp_all [seq, svClass]
  exact jeq_class h

theorem slt_class {x y : SValue} {c : Bool} (h : slt x y = some c) :
    svClass x = svClass y := by
  cases x with
  | ninf =>
    cases y with
    | ninf => rfl
    | pinf => rfl
    | val w =>
      by_cases hw : isNumLike w = true
      · simp [svClass, isNumLike_class hw]
      · simp [slt, hw] at h
  | pinf =>
    cases y with
    | ninf => rfl
    | pinf => rfl
    | val w =>
      by_cases hw : isNumLike w = true
      · simp [svClass, isNumLike_class hw]
      · simp [slt, hw] at h
  | val v =>
    cases y with
    | ninf =>
      by_cases hv : isNumLike v = true
      · simp [svClass, isNumLike_class hv]
      · simp [slt, hv] at h
    | pinf =>
      by_cases hv : isNumLike v = true
      · simp [svClass, isNumLike_class hv]
      · simp [slt, hv] at h
    | val w =>
      simp only [slt] at h
      simp only [svClass]
      exact jlt_class h

theorem tupLt_single_class {x y : SValue} {c : Bool}
    (h : tupLt [x] [y] = some c) : svClass x = svClass y := by
  by_cases hseq : seq x y = true
  · exact seq_class hseq
  · simp only [tupLt, hseq, if_false, Bool.false_eq_true] at h
    exact slt_class h

theorem below_tupClass {u v : List SValue × JValue} (h : below u v)
    (hu : ∃ a, u.1 = [a]) (hv : ∃ b, v.1 = [b]) :
    tupClass u.1 = tupClass v.1 := by
  obtain ⟨a, ha⟩ := hu
  obtain ⟨b, hb⟩ := hv
  rw [ha, hb]
  unfold below at h
  rw [ha, hb] at h
  simp only [tupClass]
  exact (tupLt_single_class h).symm

theorem chain_tupClass_head {p : List SValue × JValue}
    {rest : List (List SValue × JValue)}
    (hc : List.Chain' below (p :: rest))
    (hshape : ∀ q ∈ p :: rest, ∃ v, q.1 = [v]) :
    ∀ a ∈ rest, tupClass a.1 = tupClass p.1 := by
  induction rest generalizing p with
  | nil => simp
  | cons q t ih =>
    have hpq : below p q := (List.chain'_cons.mp hc).1
    have hq : tupClass q.1 = tupClass p.1 :=
      (below_tupClass hpq (hshape p (by simp)) (hshape q (by simp))).symm
    intro a ha
    rcases List.mem_cons.mp ha with h1 | h1
    · subst h1; exact hq
    · have := ih (List.chain'_cons.mp hc).2
        (fun r hr => hshape r (by simp at hr ⊢; tauto)) a h1
      rw [this, hq]

theorem chain_tupClass_eq {out : List (List SValue × JValue)}
    (hc : List.Chain' below out) (hshape : ∀ q ∈ out, ∃ v, q.1 = [v]) :
    ∀ x ∈ out, ∀ y ∈ out, tupClass x.1 = tupClass y.1 := by
  cases out with
  | nil => simp
  | cons p rest =>
    have hhead := chain_tupClass_head hc hshape
    intro x hx y hy
    rcases List.mem_cons.mp hx with h1 | h1 <;> rcases List.mem_cons.mp hy with h2 | h2
    · subst h1; subst h2; rfl
    · subst h1; exact (hhead y h2).symm
    · subst h2; exact hhead x h1
    · rw [hhead x h1, hhead y h2]

/-! ### Dot-path flattening -/

theorem lookupField_append_none {fields : List (String × JValue)} {k : String}
    (h : lookupField fields k = none) (v : JValue) :
    lookupField (fields ++ [(k, v)]) k = some v := by
  induction fields with
  | nil => simp [lookupField]
  | cons kv rest ih =>
    obtain ⟨k1, w⟩ := kv
    by_cases hk : k1 = k
    · simp [lookupField, hk] at h
    · simp only [lookupField, hk, if_false, List.cons_append] at h ⊢
      exact ih h

theorem lookupField_map_set {fields : List (String × JValue)} {k : String}
    {v : JValue} (h : (lookupField fields k).isSome) :
    lookupField (fields.map (fun kv => (kv.1, if kv.1 = k then v else kv.2))) k = some v := by
  induction fields with
  | nil => simp [lookupField] at h
  | cons kv rest ih =>
    obtain ⟨k1, w⟩ := kv
    by_cases hk : k1 = k
    · subst hk
      simp [lookupField]
    · simp only [lookupField, hk, if_false] at h
      simp only [List.map_cons, lookupField, hk, if_false]
      exact ih h

theorem lookupField_map_ne {fields : List (String × JValue)} {k : String}
    {v : JValue} {k2 : String} (hne : k2 ≠ k) :
    lookupField (fields.map (fun kv => (kv.1, if kv.1 = k then v else kv.2))) k2 =
      lookupField fields k2 := by
  induction fields with
  | nil => simp
  | cons kv rest ih =>
    obtain ⟨k1, w⟩ := kv
    by_cases h2 : k1 = k2
    · have hk : ¬(k1 = k) := fun hcon => hne (h2 ▸ hcon)
      simp [lookupField, h2, hk, hne]
    · simp only [List.map_cons, lookupField, h2, if_false]
      exact ih

theorem lookupField_append_ne {fields : List (String × JValue)} {k : String}
    {v : JValue} {k2 : String} (hne : k2 ≠ k) :
    lookupField (fields ++ [(k, v)]) k2 = lookupField fields k2 := by
  induction fields with
  | nil => simp [lookupField, Ne.symm hne]
  | cons kv rest ih =>
    obtain ⟨k1, w⟩ := kv
    by_cases h2 : k1 = k2 <;> simp [lookupField, h2, ih]

theorem lookupField_setField_self (fields : List (String × JValue)) (k : String)
    (v : JValue) : lookupField (setField fields k v) k = some v := by
  unfold setField
  by_cases hs : (lookupField fields k).isSome
  · simp only [hs, if_true]
    exact lookupField_map_set hs
  · simp only [hs, Bool.false_eq_true, if_false]
    have hn : lookupField fields k = none := by
      cases h : lookupField fields k
      · rfl
      · rw [h] at hs; simp at hs
    exact lookupField_append_none hn v

theorem lookupField_setField_ne (fields : List (String × JValue)) (k : String)
    (v : JValue) {k2 : String} (hne : k2 ≠ k) :
    lookupField (setField fields k v) k2 = lookupField fields k2 := by
  unfold setField
  by_cases hs : (lookupField fields k).isSome
  · simp [hs, lookupField_map_ne hne]
  · simp [hs, lookupField_append_ne hne]

theorem prepare_step_ne {fields acc : List (String × JValue)} {key_path kp : String}
    (hne : kp ≠ key_path) :
    lookupField (prepare_step fields acc key_path) kp = lookupField acc kp := by
  unfold prepare_step
  by_cases hd : hasDot key_path = true
  · simp only [hd, if_true]
    cases hg : get_nested_value (.obj fields) key_path with
    | ok v =>
      simp only [hg]
      exact lookupField_setField_ne acc key_path v hne
    | error e =>
      simp only [hg]
      exact lookupField_setField_ne acc key_path .null hne
  · simp [hd]

theorem foldl_prepare_preserve {fields : List (String × JValue)} {ks : List String}
    {kp : String} (hnot : kp ∉ ks) :
    ∀ acc, lookupField (ks.foldl (prepare_step fields) acc) kp = lookupField acc kp := by
  induction ks with
  | nil => intro acc; rfl
  | cons k0 rest ih =>
    intro acc
    simp only [List.foldl_cons]
    have h1 : kp ≠ k0 := by
      intro h
      exact hnot (h ▸ List.mem_cons_self k0 rest)
    rw [ih (fun hm => hnot (List.mem_cons_of_mem k0 hm)), prepare_step_ne h1]

theorem foldl_prepare_null {fields : List (String × JValue)} {ks : List String}
    {kp : String} {e : SortError}
    (hdot : hasDot kp = true) (hfail : get_nested_value (.obj fields) kp = .error e) :
    ∀ acc, kp ∈ ks →
      lookupField (ks.foldl (prepare_step fields) acc) kp = some .null := by
  induction ks with
  | nil =>
    intro acc hmem
    simp at hmem
  | cons k0 rest ih =>
    intro acc hmem
    simp only [List.foldl_cons]
    by_cases hr : kp ∈ rest
    · exact ih _ hr
    · have hk0 : kp = k0 := by
        rcases List.mem_cons.mp hmem with h | h
        · exact h
        · exact absurd h hr
      subst hk0
      rw [foldl_prepare_preserve hr]
      unfold prepare_step
      simp only [hdot, if_true, hfail]
      exact lookupField_setField_self acc kp .null

/-- A record whose dot-path resolution fails gets the synthetic field set
to `None` by the flattening pass. -/
theorem prepare_item_missing {fields : List (String × JValue)} {ks : List String}
    {kp : String} {e : SortError}
    (hmem : kp ∈ ks) (hdot : hasDot kp = true)
    (hfail : get_nested_value (.obj fields) kp = .error e) :
    ∃ fields2, prepare_item ks (.obj fields) = .obj fields2 ∧
      lookupField fields2 kp = some .null :=
  ⟨_, rfl, foldl_prepare_null hdot hfail fields hmem⟩

/-- A present `None` value is substituted with a direction-dependent
infinity, regardless of the missing-key strategy. -/
theorem gsv_null {fields : List (String × JValue)} {key : String}
    (h : lookupField fields key = some .null) (strat : String) (b : Bool) :
    get_sort_value strat (.obj fields) key b = .ok (if b then .pinf else .ninf) := by
  simp [get_sort_value, h]

/-! ### Helpers for the failure-mode claims -/

theorem isConfigFailure_eq_false {r : Except SortError JValue}
    (h : r ≠ .error .valueError) : isConfigFailure r = false := by
  cases r with
  | ok v => rfl
  | error e =>
    cases e with
    | valueError => exact absurd rfl h
    | keyError key => rfl
    | typeError => rfl

theorem sort_json_data_arr_no_config {xs : List JValue} {ks : List String}
    {rev : ReverseSpec} {strat : String} {rl : List Bool}
    (hn : normalize_reverse rev ks.length = .ok rl) :
    isConfigFailure (sort_json_data (.arr xs) ks rev strat) = false := by
  rw [sort_json_data_arr]
  cases hsl : sort_list xs ks rev strat with
  | error e =>
    cases e with
    | valueError => exact absurd hsl (sort_list_no_valueError hn)
    | keyError key => rfl
    | typeError => rfl
  | ok ys => rfl

theorem gsv_first_last_error {strat : String} {item : JValue} {key : String}
    {b : Bool} {e : SortError} (hstrat : strat = "first" ∨ strat = "last")
    (h : get_sort_value strat item key b = .error e) : e = .typeError := by
  cases item with
  | obj fields =>
    cases hl : lookupField fields key with
    | none =>
      rcases hstrat with hs | hs <;> subst hs <;> simp [get_sort_value, hl] at h
    | some v => cases v <;> simp [get_sort_value, hl] at h
  | null =>
    rw [show get_sort_value strat JValue.null key b = .error .typeError from rfl] at h
    injection h with h2
    exact h2.symm
  | bool c =>
    rw [show get_sort_value strat (JValue.bool c) key b = .error .typeError from rfl] at h
    injection h with h2
    exact h2.symm
  | num n =>
    rw [show get_sort_value strat (JValue.num n) key b = .error .typeError from rfl] at h
    injection h with h2
    exact h2.symm
  | str s =>
    rw [show get_sort_value strat (JValue.str s) key b = .error .typeError from rfl] at h
    injection h with h2
    exact h2.symm
  | arr a =>
    rw [show get_sort_value strat (JValue.arr a) key b = .error .typeError from rfl] at h
    injection h with h2
    exact h2.symm

theorem normalize_reverse_one {rev : ReverseSpec} {rl : List Bool}
    (h : normalize_reverse rev 1 = .ok rl) : ∃ b, rl = [b] := by
  cases rev with
  | single b =>
    simp [normalize_reverse, List.replicate] at h
    exact ⟨b, h.symm⟩
  | perKey l =>
    by_cases hl : l.length = 1
    · simp [normalize_reverse, hl] at h
      obtain ⟨a, ha⟩ := List.length_eq_one.mp hl
      exact ⟨a, by rw [← h, ha]⟩
    · simp [normalize_reverse, hl] at h

theorem sort_key_tuple_single {strat k : String} {b : Bool} {item : JValue}
    {t : List SValue} (h : sort_key_tuple strat [k] [b] item = .ok t) :
    ∃ v, t = [v] := by
  cases hg : get_sort_value strat item k b with
  | error e => simp [sort_key_tuple, mapME, hg] at h
  | ok v =>
    simp [sort_key_tuple, mapME, hg] at h
    exact ⟨v, h.symm⟩

theorem gsv_inf_class {fs1 : List (String × JValue)} {k strat : String} (b : Bool)
    (hstrat : strat = "first" ∨ strat = "last")
    (hm : lookupField fs1 k = none ∨ lookupField fs1 k = some .null) :
    ∃ v1, get_sort_value strat (.obj fs1) k b = .ok v1 ∧ svClass v1 = 0 := by
  rcases hm with hm | hm
  · rcases hstrat with hs | hs <;> subst hs
    · exact ⟨if b then .pinf else .ninf, by simp [get_sort_value, hm],
        by cases b <;> rfl⟩
    · exact ⟨if b then .ninf else .pinf, by simp [get_sort_value, hm],
        by cases b <;> rfl⟩
  · exact ⟨if b then .pinf else .ninf, gsv_null hm strat b, by cases b <;> rfl⟩

/-! ### Claim theorems -/

/-- C1 (code bug demonstration): `sorted` is called without its `reverse`
argument, so a single-key sort with direction descending (`reverse = true`)
still returns the records in ascending key order; the direction flag only
influences the infinity substitution for missing/null values.  Evaluated
at the failing input `[{a:1}, {a:2}]` (already ascending, claim demands
non-increasing output) and at `[{a:2}, {a:1}]` (gets re-sorted ascending). -/
theorem json_sorter_C1_reverse_ignored :
    sort_json_data (.arr [.obj [("a", .num 1)], .obj [("a", .num 2)]])
        ["a"] (.single true) "last" =
      .ok (.arr [.obj [("a", .num 1)], .obj [("a", .num 2)]]) ∧
    sort_json_data (.arr [.obj [("a", .num 2)], .obj [("a", .num 1)]])
        ["a"] (.single true) "last" =
      .ok (.arr [.obj [("a", .num 1)], .obj [("a", .num 2)]]) := by
  constructor <;>
    simp [sort_json_data, sort_list, normalize_reverse, decorate, mapME,
      sort_key_tuple, get_sort_value, lookupField, isortD, insertD, tupLt,
      seq, slt, jeq, jlt, bint, isNumLike]

/-- C2 counterexample: a record with an explicit null value is NOT given
the same infinity substitution as a missing key under policy `last`: the
null record receives `-inf` (the `first`-style substitution) while the
missing key receives `+inf`, and in the sorted output the null record
comes BEFORE the record with value 1, not after it as the claim states. -/
theorem json_sorter_C2_counterexample :
    get_sort_value "last" (.obj [("a", .null)]) "a" false = .ok .ninf ∧
    get_sort_value "last" (.obj []) "a" false = .ok .pinf ∧
    sort_json_data (.arr [.obj [("a", .null)], .obj [("a", .num 1)]])
        ["a"] (.single false) "last" =
      .ok (.arr [.obj [("a", .null)], .obj [("a", .num 1)]]) := by
  refine ⟨?_, ?_, ?_⟩ <;>
    simp [sort_json_data, sort_list, normalize_reverse, decorate, mapME,
      sort_key_tuple, get_sort_value, lookupField, isortD, insertD, tupLt,
      seq, slt, jeq, jlt, bint, isNumLike]

/-- C2 (amended): for every record whose resolved sort-key value is
explicitly null, the comparison value substituted is `-inf` when the key's
direction flag is false and `+inf` when it is true — the same substitution
a missing key receives under policy `first` — independent of the declared
Missing-Key Policy, so the record is pushed to the end that matches
`first` semantics. -/
theorem json_sorter_C2_amended (fields : List (String × JValue))
    (key strat : String) (b : Bool) (h : lookupField fields key = some .null) :
    get_sort_value strat (.obj fields) key b = .ok (if b then .pinf else .ninf) ∧
    get_sort_value "first" (.obj []) key b = .ok (if b then .pinf else .ninf) := by
  constructor
  · exact gsv_null h strat b
  · simp [get_sort_value, lookupField]

theorem json_sorter_C2_witness :
    get_sort_value "last" (.obj [("x", .null)]) "x" false = .ok .ninf ∧
    get_sort_value "first" (.obj []) "x" false = .ok .ninf := by
  have h := json_sorter_C2_amended [("x", .null)] "x" "last" false
    (by simp [lookupField])
  simpa using h

/-- C4: missing-key placement on the collection `{a:1}, {a:2}, {}` sorted
ascending by `a`: policy `last` leaves the record without the key at the
end, policy `first` moves it to the front, and policy `error` fails with a
`KeyError` naming the key `a`. -/
theorem json_sorter_C4_missing_key_placement :
    sort_json_data (.arr [.obj [("a", .num 1)], .obj [("a", .num 2)], .obj []])
        ["a"] (.single false) "last" =
      .ok (.arr [.obj [("a", .num 1)], .obj [("a", .num 2)], .obj []]) ∧
    sort_json_data (.arr [.obj [("a", .num 1)], .obj [("a", .num 2)], .obj []])
        ["a"] (.single false) "first" =
      .ok (.arr [.obj [], .obj [("a", .num 1)], .obj [("a", .num 2)]]) ∧
    sort_json_data (.arr [.obj [("a", .num 1)], .obj [("a", .num 2)], .obj []])
        ["a"] (.single false) "error" = .error (.keyError "a") := by
  refine ⟨?_, ?_, ?_⟩ <;>
    simp [sort_json_data, sort_list, normalize_reverse, decorate, mapME,
      sort_key_tuple, get_sort_value, lookupField, isortD, insertD, tupLt,
      seq, slt, jeq, jlt, bint, isNumLike]

/-- C5 counterexample: an empty Sort Key List does not fail (the sort
degenerates to the identity on the list), and an unsupported Missing-Key
Policy value does not fail either when every record has every sort key —
contradicting the claim that the operation fails exactly in those cases. -/
theorem json_sorter_C5_counterexample :
    sort_json_data (.arr [.obj [("a", .num 1)]]) [] (.single false) "last" =
      .ok (.arr [.obj [("a", .num 1)]]) ∧
    sort_json_data (.arr [.obj [("a", .num 1)]]) ["a"] (.single false) "bogus" =
      .ok (.arr [.obj [("a", .num 1)]]) := by
  constructor <;>
    simp [sort_json_data, sort_list, normalize_reverse, decorate, mapME,
      sort_key_tuple, get_sort_value, lookupField, isortD, insertD, tupLt,
      seq, slt, jeq, jlt, bint, isNumLike]

/-- C5 (amended): sorting a list document raises the configuration
failure (`ValueError`), before any sort, exactly when the Direction Vector
is given as a sequence whose length differs from the Sort Key List length;
a single-boolean Direction Vector never raises it.  An empty Sort Key List
and an unsupported Missing-Key Policy value are not validated (an
unsupported policy surfaces later as a `KeyError` only when a record
lacks a sort key). -/
theorem json_sorter_C5_amended (xs : List JValue) (ks : List String)
    (rl : List Bool) (b : Bool) (strat : String) :
    isConfigFailure (sort_json_data (.arr xs) ks (.perKey rl) strat) =
      decide (rl.length ≠ ks.length) ∧
    isConfigFailure (sort_json_data (.arr xs) ks (.single b) strat) = false := by
  constructor
  · by_cases hlen : rl.length = ks.length
    · have hn : normalize_reverse (.perKey rl) ks.length = .ok rl := by
        simp [normalize_reverse, hlen]
      rw [sort_json_data_arr_no_config hn]
      simp [hlen]
    · have hsl : sort_list xs ks (.perKey rl) strat = .error .valueError := by
        simp [sort_list, normalize_reverse, hlen]
      rw [sort_json_data_arr, hsl]
      simp [isConfigFailure, hlen]
  · exact @sort_json_data_arr_no_config xs ks (.single b) strat
      (List.replicate ks.length b) rfl

/-- C3 counterexample: in the nested-key pipeline, a record that lacks the
top-level mapping of the dot-path does NOT fail under policy `error` and is
not handled by the Missing-Key Policy at all — the flattening pass stored
`None` under the synthetic key, so the whole sort succeeds and the record
is placed FIRST (the null substitution `-inf`), while the claim demands a
failure under `error` (and `last` placement under policy `last`). -/
theorem json_sorter_C3_counterexample :
    sort_with_nested_keys [.obj [("user", .obj [("age", .num 30)])], .obj []]
        ["user.age"] (.single false) "error" =
      .ok [.obj [], .obj [("user", .obj [("age", .num 30)])]] := by
  simp [sort_with_nested_keys, sort_list, normalize_reverse, decorate, mapME,
    sort_key_tuple, get_sort_value, lookupField, isortD, insertD, tupLt,
    seq, slt, jeq, jlt, bint, isNumLike, prepare_data_with_nested_keys,
    prepare_item, prepare_step, hasDot, get_nested_value, splitDot,
    splitDotAux, get_nested_value_aux, setField, strip_item]

/-- C3 (amended): when dot-path resolution fails at any step for a record,
the flattening pass stores `None` under the synthetic full-path field, so
the record's comparison value for that key is the null substitution
(`-inf` for a false direction flag, `+inf` for true) regardless of the
configured Missing-Key Policy — the policy (including `error`) is never
applied to dot-path misses.  A record `{"user":{"age":30}}` sorted by
`"user.age"` resolves to comparison value `30`. -/
theorem json_sorter_C3_amended (fields : List (String × JValue))
    (ks : List String) (kp : String) (e : SortError) (strat : String) (b : Bool)
    (hmem : kp ∈ ks) (hdot : hasDot kp = true)
    (hfail : get_nested_value (.obj fields) kp = .error e) :
    get_sort_value strat (prepare_item ks (.obj fields)) kp b =
      .ok (if b then .pinf else .ninf) ∧
    get_nested_value (.obj [("user", .obj [("age", .num 30)])]) "user.age" =
      .ok (.num 30) := by
  constructor
  · obtain ⟨fields2, hp, hl⟩ := prepare_item_missing hmem hdot hfail
    rw [hp]
    exact gsv_null hl strat b
  · rfl

theorem json_sorter_C3_witness :
    get_sort_value "error" (prepare_item ["user.age"] (.obj [])) "user.age" false =
      .ok .ninf ∧
    get_nested_value (.obj [("user", .obj [("age", .num 30)])]) "user.age" =
      .ok (.num 30) := by
  have h := json_sorter_C3_amended [] ["user.age"] "user.age"
    (.keyError "user") "error" false (by simp) (by decide) (by rfl)
  simpa using h

/-- C8: sorting a mapping with exactly one entry whose value is a list
sorts the contained list and reproduces the same single wrapping key
around the sorted list. -/
theorem json_sorter_C8_wrapping (k : String) (xs ys : List JValue)
    (ks : List String) (rev : ReverseSpec) (strat : String)
    (h : sort_json_data (.arr xs) ks rev strat = .ok (.arr ys)) :
    sort_json_data (.obj [(k, .arr xs)]) ks rev strat =
      .ok (.obj [(k, .arr ys)]) := by
  rw [sort_json_data_arr] at h
  cases hsl : sort_list xs ks rev strat with
  | error e => rw [hsl] at h; simp at h
  | ok ys2 =>
    rw [hsl] at h
    simp at h
    subst h
    rw [sort_json_data_wrapped, hsl]

theorem json_sorter_C8_witness :
    sort_json_data (.obj [("items", .arr [.obj [("a", .num 2)], .obj [("a", .num 1)]])])
        ["a"] (.single false) "last" =
      .ok (.obj [("items", .arr [.obj [("a", .num 1)], .obj [("a", .num 2)]])]) := by
  apply json_sorter_C8_wrapping
  simp [sort_json_data, sort_list, normalize_reverse, decorate, mapME,
    sort_key_tuple, get_sort_value, lookupField, isortD, insertD, tupLt,
    seq, slt, jeq, jlt, bint, isNumLike]

/-- C10 counterexample: in a multi-key sort the claim fails — here record
`{a:1}` is missing key `b` (policy `last`, substitution `+inf`) and record
`{a:2, b:"x"}` holds a string for `b`, yet the sort succeeds because the
two records already differ on the higher-priority key `a`, so the
incomparable second tuple slot is never compared. -/
theorem json_sorter_C10_counterexample :
    sort_json_data
        (.arr [.obj [("a", .num 2), ("b", .str "x")], .obj [("a", .num 1)]])
        ["a", "b"] (.single false) "last" =
      .ok (.arr [.obj [("a", .num 1)], .obj [("a", .num 2), ("b", .str "x")]]) := by
  simp [sort_json_data, sort_list, normalize_reverse, decorate, mapME,
    sort_key_tuple, get_sort_value, lookupField, isortD, insertD, tupLt,
    seq, slt, jeq, jlt, bint, isNumLike]

/-- C6: stability of the sort.  For every collection, Sort Key List,
Direction Vector and Missing-Key Policy under which the sort succeeds, any
two records whose comparison tuples are equal (Python `==`) on every sort
key appear in the output in the same relative order as in the input
(expressed as preservation of the two-element sublist). -/
theorem json_sorter_C6_stability
    (xs ys : List JValue) (ks : List String) (rev : ReverseSpec) (strat : String)
    (a b : JValue) (rl : List Bool) (ta tb : List SValue)
    (hrl : normalize_reverse rev ks.length = .ok rl)
    (hta : sort_key_tuple strat ks rl a = .ok ta)
    (htb : sort_key_tuple strat ks rl b = .ok tb)
    (heq : seqT ta tb = true)
    (hsub : List.Sublist [a, b] xs)
    (hs : sort_json_data (.arr xs) ks rev strat = .ok (.arr ys)) :
    List.Sublist [a, b] ys := by
  rw [sort_json_data_arr] at hs
  cases hsl : sort_list xs ks rev strat with
  | error e => rw [hsl] at hs; simp at hs
  | ok ys2 =>
    rw [hsl] at hs
    simp at hs
    obtain ⟨rl2, dec, out, hn2, hdec, hisort, hys⟩ := sort_list_ok_elim hsl
    have hrleq : rl2 = rl := by
      rw [hrl] at hn2
      exact (Except.ok.inj hn2).symm
    subst hrleq
    have hf := mapME_forall2 hdec
    obtain ⟨s2, hs2F, hs2sub⟩ := forall2_sublist hf hsub
    rw [List.forall₂_cons_left_iff] at hs2F
    obtain ⟨pa, u1, hga, hrest, hu⟩ := hs2F
    rw [List.forall₂_cons_left_iff] at hrest
    obtain ⟨pb, u2, hgb, hnil, hu2⟩ := hrest
    rw [List.forall₂_nil_left_iff] at hnil
    subst hnil
    subst hu2
    subst hu
    simp only [hta] at hga
    simp only [htb] at hgb
    have hpa : pa = (ta, a) := (Except.ok.inj hga).symm
    have hpb : pb = (tb, b) := (Except.ok.inj hgb).symm
    subst hpa
    subst hpb
    have hstab := isortD_stable hisort hs2sub heq
    have hmap := hstab.map (fun p => p.2)
    simp only [List.map_cons, List.map_nil] at hmap
    rw [← hs, hys]
    exact hmap

theorem json_sorter_C6_witness :
    seqT [SValue.pinf] [SValue.pinf] = true ∧
    List.Sublist [JValue.obj [("b", .num 1)], JValue.obj [("b", .num 2)]]
      [JValue.obj [("b", .num 1)], JValue.obj [("b", .num 2)]] := by
  constructor
  · rfl
  · exact json_sorter_C6_stability
      [.obj [("b", .num 1)], .obj [("b", .num 2)]]
      [.obj [("b", .num 1)], .obj [("b", .num 2)]]
      ["a"] (.single false) "last"
      (.obj [("b", .num 1)]) (.obj [("b", .num 2)])
      [false] [.pinf] [.pinf]
      rfl
      (by simp [sort_key_tuple, mapME, get_sort_value, lookupField])
      (by simp [sort_key_tuple, mapME, get_sort_value, lookupField])
      rfl
      (List.Sublist.refl _)
      (by simp [sort_json_data, sort_list, normalize_reverse, decorate, mapME,
            sort_key_tuple, get_sort_value, lookupField, isortD, insertD,
            tupLt, seq, slt, jeq, jlt, bint, isNumLike])

/-- C7: idempotence.  For every Collection-shaped document and parameters
under which the sort succeeds, sorting the output again with the same
parameters returns the output unchanged. -/
theorem json_sorter_C7_idempotent {data out : JValue} {ks : List String}
    {rev : ReverseSpec} {strat : String}
    (hcol : isCollection data = true)
    (h : sort_json_data data ks rev strat = .ok out) :
    sort_json_data out ks rev strat = .ok out := by
  cases data with
  | null => simp [isCollection] at hcol
  | bool c => simp [isCollection] at hcol
  | num n => simp [isCollection] at hcol
  | str s => simp [isCollection] at hcol
  | arr xs =>
    rw [sort_json_data_arr] at h
    cases hsl : sort_list xs ks rev strat with
    | error e => rw [hsl] at h; simp at h
    | ok ys =>
      rw [hsl] at h
      simp at h
      subst h
      rw [sort_json_data_arr, sort_list_idem hsl]
  | obj fields =>
    rcases fields with _ | ⟨⟨k, v⟩, rest⟩
    · rw [show sort_json_data (.obj []) ks rev strat =
            (match sort_list [.obj []] ks rev strat with
             | .error e => .error e
             | .ok ys => .ok (.arr ys)) from rfl] at h
      cases hsl : sort_list [.obj []] ks rev strat with
      | error e => rw [hsl] at h; simp at h
      | ok ys =>
        rw [hsl] at h
        simp at h
        subst h
        rw [sort_json_data_arr, sort_list_idem hsl]
    · rcases rest with _ | ⟨kv2, rest2⟩
      · cases v with
        | arr xs =>
          rw [sort_json_data_wrapped] at h
          cases hsl : sort_list xs ks rev strat with
          | error e => rw [hsl] at h; simp at h
          | ok ys =>
            rw [hsl] at h
            simp at h
            subst h
            rw [sort_json_data_wrapped, sort_list_idem hsl]
        | null =>
          rw [show sort_json_data (.obj [(k, .null)]) ks rev strat =
                (match sort_list [.obj [(k, .null)]] ks rev strat with
                 | .error e => .error e
                 | .ok ys => .ok (.arr ys)) from rfl] at h
          cases hsl : sort_list [.obj [(k, .null)]] ks rev strat with
          | error e => rw [hsl] at h; simp at h
          | ok ys =>
            rw [hsl] at h
            simp at h
            subst h
            rw [sort_json_data_arr, sort_list_idem hsl]
        | bool c =>
          rw [show sort_json_data (.obj [(k, .bool c)]) ks rev strat =
                (match sort_list [.obj [(k, .bool c)]] ks rev strat with
                 | .error e => .error e
                 | .ok ys => .ok (.arr ys)) from rfl] at h
          cases hsl : sort_list [.obj [(k, .bool c)]] ks rev strat with
          | error e => rw [hsl] at h; simp at h
          | ok ys =>
            rw [hsl] at h
            simp at h
            subst h
            rw [sort_json_data_arr, sort_list_idem hsl]
        | num n =>
          rw [show sort_json_data (.obj [(k, .num n)]) ks rev strat =
                (match sort_list [.obj [(k, .num n)]] ks rev strat with
                 | .error e => .error e
                 | .ok ys => .ok (.arr ys)) from rfl] at h
          cases hsl : sort_list [.obj [(k, .num n)]] ks rev strat with
          | error e => rw [hsl] at h; simp at h
          | ok ys =>
            rw [hsl] at h
            simp at h
            subst h
            rw [sort_json_data_arr, sort_list_idem hsl]
        | str s =>
          rw [show sort_json_data (.obj [(k, .str s)]) ks rev strat =
                (match sort_list [.obj [(k, .str s)]] ks rev strat with
                 | .error e => .error e
                 | .ok ys => .ok (.arr ys)) from rfl] at h
          cases hsl : sort_list [.obj [(k, .str s)]] ks rev strat with
          | error e => rw [hsl] at h; simp at h
          | ok ys =>
            rw [hsl] at h
            simp at h
            subst h
            rw [sort_json_data_arr, sort_list_idem hsl]
        | obj fs2 =>
          rw [show sort_json_data (.obj [(k, .obj fs2)]) ks rev strat =
                (match sort_list [.obj [(k, .obj fs2)]] ks rev strat with
                 | .error e => .error e
                 | .ok ys => .ok (.arr ys)) from rfl] at h
          cases hsl : sort_list [.obj [(k, .obj fs2)]] ks rev strat with
          | error e => rw [hsl] at h; simp at h
          | ok ys =>
            rw [hsl] at h
            simp at h
            subst h
            rw [sort_json_data_arr, sort_list_idem hsl]
      · have hunfold : sort_json_data (.obj ((k, v) :: kv2 :: rest2)) ks rev strat =
              (match sort_list [.obj ((k, v) :: kv2 :: rest2)] ks rev strat with
               | .error e => .error e
               | .ok ys => .ok (.arr ys)) := by
          cases v <;> rfl
        rw [hunfold] at h
        cases hsl : sort_list [.obj ((k, v) :: kv2 :: rest2)] ks rev strat with
        | error e => rw [hsl] at h; simp at h
        | ok ys =>
          rw [hsl] at h
          simp at h
          subst h
          rw [sort_json_data_arr, sort_list_idem hsl]

theorem json_sorter_C7_witness :
    sort_json_data (.arr [.obj [("a", .num 1)], .obj [("a", .num 2)]])
        ["a"] (.single false) "last" =
      .ok (.arr [.obj [("a", .num 1)], .obj [("a", .num 2)]]) := by
  exact @json_sorter_C7_idempotent
    (.arr [.obj [("a", .num 2)], .obj [("a", .num 1)]])
    (.arr [.obj [("a", .num 1)], .obj [("a", .num 2)]])
    ["a"] (.single false) "last"
    rfl
    (by simp [sort_json_data, sort_list, normalize_reverse, decorate, mapME,
          sort_key_tuple, get_sort_value, lookupField, isortD, insertD,
          tupLt, seq, slt, jeq, jlt, bint, isNumLike])

/-- A present value that is not null is used as the comparison value
as-is, for every strategy and direction flag. -/
theorem gsv_val_of_ne_null {fields : List (String × JValue)} {key : String}
    {v : JValue} (h : lookupField fields key = some v) (hnull : v ≠ .null)
    (strat : String) (b : Bool) :
    get_sort_value strat (.obj fields) key b = .ok (.val v) := by
  cases v with
  | null => exact absurd rfl hnull
  | bool c => simp [get_sort_value, h]
  | num n => simp [get_sort_value, h]
  | str s => simp [get_sort_value, h]
  | arr a => simp [get_sort_value, h]
  | obj fs => simp [get_sort_value, h]

/-- A value that is neither numeric (int/bool) nor null lies outside the
numeric comparability class. -/
theorem jClass_ne_zero {v : JValue} (hnn : isNumLike v = false)
    (hnull : v ≠ .null) : jClass v ≠ 0 := by
  cases v <;> simp_all [isNumLike, jClass]

/-- C10 (amended): for a single-key sort under policy `first` or `last`
(with a well-formed Direction Vector), if some record is missing the key
or holds null for it while another record holds a non-numeric value for it
(a string, a list or a mapping — any value that is neither an int/bool nor
null), the sort fails with the `TypeError`-class comparison failure: the
substituted infinity is incomparable with the non-numeric value, and in
the single-key case no higher-priority key can keep the two comparison
slots apart.  (In multi-key sorts the failure is not guaranteed; see the
counterexample.) -/
theorem json_sorter_C10_amended
    (xs : List JValue) (k strat : String) (rev : ReverseSpec) (rl : List Bool)
    (fs1 fs2 : List (String × JValue)) (v2 : JValue)
    (hstrat : strat = "first" ∨ strat = "last")
    (hnorm : normalize_reverse rev 1 = .ok rl)
    (hmem1 : JValue.obj fs1 ∈ xs) (hmem2 : JValue.obj fs2 ∈ xs)
    (hmiss : lookupField fs1 k = none ∨ lookupField fs1 k = some .null)
    (hval : lookupField fs2 k = some v2)
    (hnn : isNumLike v2 = false) (hnnull : v2 ≠ .null) :
    sort_json_data (.arr xs) [k] rev strat = .error .typeError := by
  obtain ⟨b, hb⟩ := normalize_reverse_one hnorm
  subst hb
  rw [sort_json_data_arr]
  have hn1 : normalize_reverse rev (List.length [k]) = .ok [b] := hnorm
  suffices hsl : sort_list xs [k] rev strat = .error .typeError by
    rw [hsl]
  simp only [sort_list, hn1]
  cases hdec : decorate strat [k] [b] xs with
  | error e =>
    simp only [hdec]
    obtain ⟨item, _, kb, hkb, hgsv⟩ := decorate_error hdec
    rw [gsv_first_last_error hstrat hgsv]
  | ok dec =>
    simp only [hdec]
    cases hisort : isortD dec with
    | none => simp only [hisort]
    | some out =>
      exfalso
      have hf := mapME_forall2 hdec
      obtain ⟨v1, hv1, hcls1⟩ := gsv_inf_class b hstrat hmiss
      have ht1 : sort_key_tuple strat [k] [b] (.obj fs1) = .ok [v1] := by
        simp [sort_key_tuple, mapME, hv1]
      have ht2 : sort_key_tuple strat [k] [b] (.obj fs2) = .ok [.val v2] := by
        simp [sort_key_tuple, mapME, gsv_val_of_ne_null hval hnnull strat b]
      obtain ⟨p1, hp1mem, hp1⟩ := forall2_mem_left hf hmem1
      obtain ⟨p2, hp2mem, hp2⟩ := forall2_mem_left hf hmem2
      simp only [ht1] at hp1
      simp only [ht2] at hp2
      have hp1e : p1 = ([v1], JValue.obj fs1) := (Except.ok.inj hp1).symm
      have hp2e : p2 = ([.val v2], JValue.obj fs2) := (Except.ok.inj hp2).symm
      have hshape : ∀ q ∈ out, ∃ v, q.1 = [v] := by
        intro q hq
        have hqdec : q ∈ dec := (isortD_perm hisort).mem_iff.mp hq
        exact sort_key_tuple_single (decorate_mem hdec q hqdec)
      have hchain := isortD_chain hisort
      have h1 : p1 ∈ out := (isortD_perm hisort).mem_iff.mpr hp1mem
      have h2 : p2 ∈ out := (isortD_perm hisort).mem_iff.mpr hp2mem
      have hcls := chain_tupClass_eq hchain hshape p1 h1 p2 h2
      rw [hp1e, hp2e] at hcls
      simp only [tupClass] at hcls
      rw [hcls1] at hcls
      simp only [svClass] at hcls
      exact jClass_ne_zero hnn hnnull hcls.symm

theorem json_sorter_C10_witness :
    sort_json_data (.arr [.obj [("a", .str "x")], .obj []])
        ["a"] (.single false) "last" = .error .typeError := by
  exact json_sorter_C10_amended
    [.obj [("a", .str "x")], .obj []] "a" "last" (.single false) [false]
    [] [("a", .str "x")] (.str "x")
    (Or.inr rfl)
    rfl
    (by simp)
    (by simp)
    (Or.inl rfl)
    (by simp [lookupField])
    rfl
    (by simp)
